import Mathlib

/-!
# Verification of the seqan3 CI helper scripts

Shallow embedding of the three Python scripts of the repository:

* `.github/workflows/scripts/process_compiler_error_log.py` — the error-log
  tokenizer: splits a build log into per-failure segments with
  `tokenise_regex`, extracts a summary per segment with `error_regex`,
  renders Markdown blocks and truncates the report to 65300 characters.
* `.github/workflows/scripts/ram_usage.py` — the resource-usage reporter:
  scans 23-line blocks, collects (label, RAM-in-MiB) records and writes a
  table sorted by descending RAM, then descending label.
* `test/documentation/doc_test.py` — the documentation warning gate: counts
  warning lines of a child process, echoes them, and exits 1 iff any.

Strings are modelled as `List Char`.  Python's `re` character classes `\s`
and `\d` are modelled over their ASCII ranges (the logs the scripts consume
are ASCII); Python `str` semantics such as `rstrip`, `split`, slicing and
`html.escape` are translated operation by operation below.
-/

/-! ## Error-log tokenizer: basic character classes and literals -/

/-- Python regex `\s` / `str` whitespace over ASCII:
space, tab, newline, carriage return, vertical tab, form feed. -/
def pySpace (c : Char) : Bool :=
  c = ' ' || c = '\t' || c = '\n' || c = '\r' || c = '\x0b' || c = '\x0c'

/-- Python regex `\d` over ASCII: a decimal digit. -/
def pyDigit (c : Char) : Bool :=
  '0' ≤ c && c ≤ '9'

/-- The newline character, used by `str.split('\n')`. -/
def nlChar : Char := '\n'

/-- The literal `: error:` required by `tokenise_regex` between the two
progress markers (the regex part `(?:: error:)`). -/
def colonError : List Char := (": error:").data

/-- The literal `error:` searched by `error_regex`. -/
def errorLit : List Char := ("error:").data

/-- `pat` occurs as a substring of `s` (at some offset). -/
def containsSub (pat s : List Char) : Bool :=
  (List.range (s.length + 1)).any fun j => pat.isPrefixOf (s.drop j)

/-! ## The progress marker `\[\s*\d+%\]`

`tokenise_regex` begins with `\[\s*\d+%\]`: a literal `[`, a run of
whitespace, a nonempty run of digits, then `%]`.  Since `\s` and `\d` are
disjoint and `%` is neither, the regex matches at a position iff the text
there has exactly this shape, and the match length is determined. -/

/-- Length of the marker `\[\s*\d+%\]` matching at the front of `s`,
or `none` when the regex does not match there. -/
def markerLen (s : List Char) : Option Nat :=
  match s with
  | [] => none
  | c :: rest =>
    if c = '[' then
      let ws := rest.takeWhile pySpace
      let r2 := rest.drop ws.length
      let ds := r2.takeWhile pyDigit
      if ds.isEmpty then none
      else if (r2.drop ds.length).take 2 = ['%', ']'] then
        some (ws.length + ds.length + 3)
      else none
    else none

/-- The marker matches at the front of `s`. -/
def isMarkerAt (s : List Char) : Bool := (markerLen s).isSome

/-- Least offset `j ≥ 0` such that the progress marker matches at
`s.drop j`, scanning left to right like the regex engine. -/
def firstMarkerIdx : List Char → Option Nat
  | [] => none
  | c :: rest =>
    if isMarkerAt (c :: rest) then some 0
    else (firstMarkerIdx rest).map (· + 1)

/-! ## Matching `tokenise_regex` at one position

The pattern is
`\[\s*\d+%\](?:.(?!\[\s*\d+%\]))+(?:: error:).*?(?=\[\s*\d+%\]|$)`
with `re.DOTALL`.  After the initial marker (length `ml`), write `r` for
the remaining text.  The middle part `(?:.(?!\[\s*\d+%\]))+` consumes `k ≥ 1`
characters of `r`, each one followed by a position where the marker does
not match; so `k` is bounded by `kmax`, one less than the least offset
`b ≥ 1` of `r` at which the marker matches (offset `0` is never tested by
the lookahead), or `r.length` when there is no such offset.  The engine
tries the largest `k` first (greedy `+`, backtracking one character at a
time), so `k` is the largest offset `1 ≤ k ≤ kmax` at which the literal
`: error:` matches.  The lazy tail `.*?(?=\[\s*\d+%\]|$)` then extends the
match to the first offset `m ≥ k + 8` at which the marker matches or the
anchor `$` holds; without `re.MULTILINE`, `$` holds at the end of the text
and just before a final newline. -/

/-- Largest offset `k` with `1 ≤ k ≤ kmax` at which `: error:` is a prefix
of `r.drop k` (the backtracking of the greedy `+` stops there first). -/
def lastErrIdx (r : List Char) (kmax : Nat) : Option Nat :=
  ((List.range (kmax + 1)).filter
    fun k => decide (1 ≤ k) && colonError.isPrefixOf (r.drop k)).getLast?

/-- The lookahead `(?=\[\s*\d+%\]|$)` holds at offset `m` of `r`. -/
def stopCond (r : List Char) (m : Nat) : Bool :=
  isMarkerAt (r.drop m) || m == r.length ||
    (m + 1 == r.length && decide (r.drop m = [nlChar]))

/-- First offset `m ≥ m0` (scanning upward, as the lazy `.*?` does) at which
`stopCond` holds; `fuel` bounds the scan. -/
def findStopAux (r : List Char) : Nat → Nat → Nat
  | 0, m => m
  | fuel + 1, m => if stopCond r m then m else findStopAux r fuel (m + 1)

/-- First offset `m ≥ m0` at which the lookahead `(?=\[\s*\d+%\]|$)` holds;
`stopCond` always holds at `r.length`, so the scan terminates there at the
latest. -/
def findStop (r : List Char) (m0 : Nat) : Nat :=
  findStopAux r (r.length + 1 - m0) m0

/-- Length of the match of `tokenise_regex` at the front of `s`, or `none`
when the pattern does not match there. -/
def matchLen (s : List Char) : Option Nat :=
  match markerLen s with
  | none => none
  | some ml =>
    let r := s.drop ml
    let kmax :=
      match (firstMarkerIdx (r.drop 1)).map (· + 1) with
      | some b => b - 1
      | none => r.length
    match lastErrIdx r kmax with
    | none => none
    | some k => some (ml + findStop r (k + 8))

/-! ## `tokenise_regex.finditer`

`finditer` scans the document left to right: at each position it attempts a
match; a successful match (never empty here) is yielded and the scan
resumes at its end, a failed attempt advances one character. -/

/-- The scan of `finditer`: `pos` is the current absolute position, `s` the
remaining text, and `fuel` bounds the number of characters consumed (every
step consumes at least one).  Each match is returned as its absolute
position paired with the matched text (`match.groups()[0]` is the whole
pattern, which is wrapped in one capturing group). -/
def tokeniseAux : Nat → Nat → List Char → List (Nat × List Char)
  | 0, _, _ => []
  | _, _, [] => []
  | fuel + 1, pos, s@(_ :: rest) =>
    match matchLen s with
    | some len => (pos, s.take len) :: tokeniseAux fuel (pos + len) (s.drop len)
    | none => tokeniseAux fuel (pos + 1) rest

/-- All matches of `tokenise_regex` in `content`, in document order:
the list of failure segments with their positions. -/
def tokenise (content : List Char) : List (Nat × List Char) :=
  tokeniseAux content.length 0 content

/-! ## Summary extraction: `error_regex = (error:[^(;\n]*)`

`re.search` finds the leftmost occurrence of the literal `error:` and the
greedy `[^(;\n]*` then extends over every following character that is not
`(`, `;` or a newline. -/

/-- A character the class `[^(;\n]` accepts. -/
def notStopChar (c : Char) : Bool :=
  !(c = '(' || c = ';' || c = nlChar)

/-- `re.search(error_regex, s)`: the text of the leftmost match, or `none`
when `error:` does not occur in `s` (in the script the `.group()` call on
`None` would raise). -/
def errorCapture : List Char → Option (List Char)
  | [] => none
  | c :: rest =>
    if errorLit.isPrefixOf (c :: rest) then
      some (errorLit ++ ((c :: rest).drop 6).takeWhile notStopChar)
    else
      errorCapture rest

/-! ## Python string operations used by the rendering -/

/-- Python `str.rstrip()`: remove trailing whitespace. -/
def rstrip (s : List Char) : List Char := s.rdropWhile pySpace

/-- Python `str.split('\n')`: split at every newline; the result is never
empty, and splitting the empty string yields one empty piece. -/
def splitNl : List Char → List (List Char)
  | [] => [[]]
  | c :: rest =>
    if c = nlChar then [] :: splitNl rest
    else
      match splitNl rest with
      | [] => [[c]]
      | piece :: pieces => (c :: piece) :: pieces

/-- Python `'\n'.join(pieces)`. -/
def intercalateNl : List (List Char) → List Char
  | [] => []
  | [piece] => piece
  | piece :: pieces => piece ++ nlChar :: intercalateNl pieces

/-- `html.escape` with its default `quote=True`: `&`, `<`, `>`, `"` and `'`
are replaced by their entities (the replacement of `&` happens first in the
Python implementation, so the net effect is this character-wise map). -/
def escChar (c : Char) : List Char :=
  if c = '&' then ("&amp;").data
  else if c = '<' then ("&lt;").data
  else if c = '>' then ("&gt;").data
  else if c = '"' then ("&quot;").data
  else if c = '\'' then ("&#x27;").data
  else [c]

/-- `html.escape` applied to a whole string. -/
def htmlEscape : List Char → List Char
  | [] => []
  | c :: rest => escChar c ++ htmlEscape rest

/-- Decimal rendering of the 1-based counter (`'{}'.format(counter)`). -/
def natRepr (n : Nat) : List Char := (Nat.repr n).data

/-! ## Rendering one block and the whole report

```
log += '<details><summary>Error {}: <code>{}</code></summary>\n\n```text\n'
           .format(counter, error_message)
log += '\n'.join(group.split('\n')[:30]).rstrip()
log += '\n```\n</details>\n'
```
with `error_message = html.escape(re.search(error_regex, group).group()
.rstrip()[:110])`. -/

/-- The text before the counter in the block header. -/
def blockPre : List Char := ("<details><summary>Error ").data

/-- The text between the counter and the escaped summary. -/
def blockMid : List Char := (": <code>").data

/-- The text between the escaped summary and the body. -/
def blockMid2 : List Char := ("</code></summary>\n\n```text\n").data

/-- The text closing a block. -/
def blockEnd : List Char := ("\n```\n</details>\n").data

/-- One iteration of the loop body: the block appended to the log for the
segment `group` under counter value `counter`; `none` models the exception
the script would raise if `re.search` found no `error:` in the segment. -/
def renderBlock (counter : Nat) (group : List Char) : Option (List Char) :=
  (errorCapture group).map fun cap =>
    blockPre ++ natRepr counter ++ blockMid ++
      htmlEscape ((rstrip cap).take 110) ++ blockMid2 ++
      rstrip (intercalateNl ((splitNl group).take 30)) ++ blockEnd

/-- The loop over all segments, threading the 1-based counter. -/
def renderAll : Nat → List (List Char) → Option (List Char)
  | _, [] => some []
  | counter, g :: gs =>
    (renderBlock counter g).bind fun b =>
      (renderAll (counter + 1) gs).map fun rest => b ++ rest

/-- The full (untruncated) report accumulated in `log`. -/
def report (content : List Char) : Option (List Char) :=
  renderAll 1 ((tokenise content).map (·.2))

/-- What the script prints: `print(log[:65300])`, the report truncated to
65300 characters (`none` models an uncaught exception). -/
def processLog (content : List Char) : Option (List Char) :=
  (report content).map (·.take 65300)

/-! ## Resource usage reporter (`ram_usage.py`)

```
for line_number, line in enumerate(input_file):
    if line_number % 23 == 0:
        index_of_unit = line.rfind('unit')
        if index_of_unit != - 1:
            parsing_ram_usage = True
            file_names.append(line[index_of_unit:][:-2])
        else:
            parsing_ram_usage = False
    if parsing_ram_usage and ((line_number - 9) % 23) == 0:
        ram_usages.append(int(line.split(' ')[-1]) // 1024)
```
The input is modelled as the list of its lines (each line keeping its
trailing newline, as Python's file iteration does). -/

/-- The marker substring `unit`. -/
def unitLit : List Char := ("unit").data

/-- Python `line.rfind('unit')`: the largest index at which `unit` occurs,
or `none` when it does not occur (Python returns `-1`). -/
def lastIdxOfUnit (l : List Char) : Option Nat :=
  ((List.range l.length).filter fun i => unitLit.isPrefixOf (l.drop i)).getLast?

/-- Python `line[i:][:-2]`: the text from index `i` on, with its last two
characters removed (empty when fewer than two remain). -/
def labelOf (l : List Char) (i : Nat) : List Char :=
  ((l.drop i).dropLast).dropLast

/-- Python `line.split(' ')[-1]`: the text after the last space of the line
(the whole line when it has no space). -/
def lastTok (l : List Char) : List Char :=
  (l.reverse.takeWhile fun c => !(c = ' ')).reverse

/-- Numeric value of a digit string. -/
def digitsToNat (ds : List Char) : Nat :=
  ds.foldl (fun a c => 10 * a + (c.toNat - 48)) 0

/-- Python's digit-string grammar for `int`: `digit+ ('_' digit+)*` — a
nonempty digit string where single underscores may separate digits.  The
argument records whether the previous character was a digit. -/
def digitGroups : List Char → Bool → Bool
  | [], prevDigit => prevDigit
  | c :: rest, prevDigit =>
    if pyDigit c then digitGroups rest true
    else if c = '_' then prevDigit && digitGroups rest false
    else false

/-- A digit string acceptable to `int` (underscores allowed between
digits), or `none`. -/
def parseDigits (ds : List Char) : Option Nat :=
  if digitGroups ds false then
    some (digitsToNat (ds.filter fun c => !(c = '_')))
  else none

/-- Python `int(s)` on a decimal string: surrounding whitespace is ignored,
one optional sign, then a nonempty digit string; `none` models the
`ValueError` Python raises otherwise. -/
def parseIntPy (s : List Char) : Option Int :=
  match (s.dropWhile pySpace).rdropWhile pySpace with
  | '+' :: ds => (parseDigits ds).map fun n => (n : Int)
  | '-' :: ds => (parseDigits ds).map fun n => -(n : Int)
  | ds => (parseDigits ds).map fun n => (n : Int)

/-- The reporter's scan over the input lines: `n` is `line_number`, `flag`
is `parsing_ram_usage`, `ns` and `us` accumulate `file_names` and
`ram_usages`.  Python's `((line_number - 9) % 23) == 0` (with Python's
flooring `%` on the negative values at `line_number < 9`) is equivalent to
`line_number % 23 == 9`.  `//` on `int` is floor division, `Int.fdiv`.
`none` models the `ValueError` of a failed `int(...)`. -/
def collectAux : List (List Char) → Nat → Bool → List (List Char) → List Int →
    Option (Bool × List (List Char) × List Int)
  | [], _, flag, ns, us => some (flag, ns, us)
  | l :: rest, n, flag, ns, us =>
    let st : Bool × List (List Char) :=
      if n % 23 == 0 then
        match lastIdxOfUnit l with
        | some i => (true, ns ++ [labelOf l i])
        | none => (false, ns)
      else (flag, ns)
    if st.1 && (n % 23 == 9) then
      match parseIntPy (lastTok l) with
      | some v => collectAux rest (n + 1) st.1 st.2 (us ++ [Int.fdiv v 1024])
      | none => none
    else collectAux rest (n + 1) st.1 st.2 us

/-- The whole reading loop of `ram_usage.py`. -/
def collect (lines : List (List Char)) :
    Option (Bool × List (List Char) × List Int) :=
  collectAux lines 0 false [] []

/-- Sort key of a table row `(File, RAM in MiB)`: the pair (RAM, File)
ordered lexicographically, RAM first. -/
def rowKey (row : List Char × Int) : Int ×ₗ (List Char) :=
  toLex (row.2, row.1)

/-- `df.sort_values(by=['RAM in MiB', 'File'], ascending=False)` sorts by
the (RAM, File) key, both components descending: row `a` may precede `b`
iff `b`'s key is at most `a`'s. -/
def rowLe (a b : List Char × Int) : Prop := rowKey b ≤ rowKey a

instance : DecidableRel rowLe := fun a b =>
  inferInstanceAs (Decidable (rowKey b ≤ rowKey a))

instance : IsTotal (List Char × Int) rowLe :=
  ⟨fun a b => le_total (rowKey b) (rowKey a)⟩

instance : IsTrans (List Char × Int) rowLe :=
  ⟨fun _ _ _ h1 h2 => le_trans h2 h1⟩

/-- The sorted table (`pandas.sort_values` is modelled by a comparison sort
with the same key; for rows tying on both key components `sort_values`
with its default quicksort fixes no order, and every theorem below is
insensitive to the order of such full ties). -/
def sortRows (rows : List (List Char × Int)) : List (List Char × Int) :=
  List.insertionSort rowLe rows

/-- The rows of the output table of `ram_usage.py`:
`pandas.DataFrame({'File': ns, 'RAM in MiB': us})` pairs the two column
lists when their lengths agree and raises otherwise (`none`); the frame is
then sorted and written (CSV serialisation is not modelled, the table's
rows in output order are). -/
def ramRows (lines : List (List Char)) : Option (List (List Char × Int)) :=
  (collect lines).bind fun s =>
    if s.2.1.length = s.2.2.length then some (sortRows (s.2.1.zip s.2.2))
    else none

/-! ## Documentation warning gate (`doc_test.py`)

```
regexp = re.compile(r'(CLANG_OPTIONS|CLANG_ASSISTED_PARSING)')
cnt = 0
for line in process.stdout:
    _line = line.decode('utf-8')
    if "warning:" in _line and not regexp.search(_line):
        cnt = cnt + 1
        print(line)
if cnt != 0:
    print("Detected %d warnings!" % (cnt))
    sys.exit(1)
sys.exit(0)
```
The child's combined output stream is modelled as the list of its lines;
a line is a byte string whose bytes are the codepoints of the `Char`s
(the warning lines at issue are ASCII, where `decode('utf-8')` is the
identity).  `print(line)` prints the `bytes` object `line`, that is, its
Python literal representation `b'...'` — not the decoded text. -/

/-- The literal `warning:`. -/
def warnLit : List Char := ("warning:").data

/-- The literal `CLANG_OPTIONS`. -/
def clangOptLit : List Char := ("CLANG_OPTIONS").data

/-- The literal `CLANG_ASSISTED_PARSING`. -/
def clangAsstLit : List Char := ("CLANG_ASSISTED_PARSING").data

/-- A qualifying warning line: contains `warning:` and the search for
`(CLANG_OPTIONS|CLANG_ASSISTED_PARSING)` fails. -/
def qualifies (l : List Char) : Bool :=
  containsSub warnLit l &&
    !(containsSub clangOptLit l || containsSub clangAsstLit l)

/-- Lower-case hexadecimal digit. -/
def hexDigit (n : Nat) : Char :=
  if n < 10 then Char.ofNat (48 + n) else Char.ofNat (87 + n)

/-- One byte of a Python `bytes` literal under quote character `q`:
the quote and the backslash are backslash-escaped, tab, newline and
carriage return use their two-character escapes, other non-printable
bytes use `\xhh`, printable bytes stand for themselves. -/
def escByte (q c : Char) : List Char :=
  if c = q || c = '\\' then ['\\', c]
  else if c = '\t' then ['\\', 't']
  else if c = nlChar then ['\\', 'n']
  else if c = '\r' then ['\\', 'r']
  else if c.toNat < 32 || 127 ≤ c.toNat then
    ['\\', 'x', hexDigit (c.toNat / 16 % 16), hexDigit (c.toNat % 16)]
  else [c]

/-- Per-byte escaping of a whole `bytes` literal. -/
def escBytes (q : Char) : List Char → List Char
  | [] => []
  | c :: rest => escByte q c ++ escBytes q rest

/-- What `print(line)` emits for a `bytes` object: `repr(line)`, a `b`
followed by the quoted escaped bytes.  The quote is a single quote unless
the bytes contain one and no double quote. -/
def bytesRepr (l : List Char) : List Char :=
  let q : Char := if '\'' ∈ l ∧ ¬ '"' ∈ l then '"' else '\''
  'b' :: q :: escBytes q l ++ [q]

/-- The summary line `"Detected %d warnings!" % (cnt)`. -/
def summaryMsg (cnt : Nat) : List Char :=
  ("Detected ").data ++ natRepr cnt ++ (" warnings!").data

/-- The loop over the stream: threads `cnt` and the lines echoed so far. -/
def gateScan : List (List Char) → Nat → List (List Char) →
    Nat × List (List Char)
  | [], cnt, outs => (cnt, outs)
  | l :: rest, cnt, outs =>
    if qualifies l then gateScan rest (cnt + 1) (outs ++ [bytesRepr l])
    else gateScan rest cnt outs

/-- Observable behavior of one run of the gate. -/
structure GateResult where
  count : Nat
  echoed : List (List Char)
  summary : Option (List Char)
  exitCode : Nat
  deriving DecidableEq, Repr

/-- The whole gate: scan the stream, then print the summary and choose the
exit status from the final count. -/
def docGate (stream : List (List Char)) : GateResult :=
  let scanned := gateScan stream 0 []
  { count := scanned.1
    echoed := scanned.2
    summary := if scanned.1 ≠ 0 then some (summaryMsg scanned.1) else none
    exitCode := if scanned.1 ≠ 0 then 1 else 0 }

/-! ## Statement vocabulary for the segmentation properties -/

/-- At the end of a segment placed at `x` in `content`, the lookahead that
ended the match holds: the next progress marker starts there, or the
document ends there, or only the document's final newline follows. -/
def segEndOk (content : List Char) (x : Nat × List Char) : Prop :=
  isMarkerAt (content.drop (x.1 + x.2.length)) = true
  ∨ x.1 + x.2.length = content.length
  ∨ (x.1 + x.2.length + 1 = content.length
      ∧ content.drop (x.1 + x.2.length) = [nlChar])

/-- A well-placed failure segment `x` of `content`: it is the substring of
`content` at its recorded position, it begins with a progress marker lying
inside it, it contains the substring `: error:`, and it extends to the
next progress marker or the end of the document. -/
def goodSeg (content : List Char) (x : Nat × List Char) : Prop :=
  x.2 = (content.drop x.1).take x.2.length
  ∧ (∃ ml, markerLen (content.drop x.1) = some ml ∧ 1 ≤ ml ∧ ml ≤ x.2.length)
  ∧ containsSub colonError x.2 = true
  ∧ segEndOk content x

/-! ## Concrete documents and streams used by the counterexamples and
witnesses -/

/-- A document that begins with a progress marker, contains `error:`
(lower-case, not preceded by a colon) and has no second marker. -/
def c1Doc : List Char := ("[ 10%] error: x").data

/-- The end-to-end scenario input of the specification:
`[ 10%] building foo\n[ 20%] error: cannot find symbol 'x'; at line 5\nmore context\n[ 30%] done\n`. -/
def c2Input : List Char :=
  ("[ 10%] building foo\n[ 20%] error: cannot find symbol ").data ++
    '\'' :: ("x").data ++ '\'' :: ("; at line 5\nmore context\n[ 30%] done\n").data

/-- The same scenario with the error line in the compiler's
`file: error:` shape, which `tokenise_regex` actually requires:
the error line reads `[ 20%] foo.cpp: error: cannot find symbol 'x'; at line 5`. -/
def c2Fixed : List Char :=
  ("[ 10%] building foo\n[ 20%] foo.cpp: error: cannot find symbol ").data ++
    '\'' :: ("x").data ++ '\'' :: ("; at line 5\nmore context\n[ 30%] done\n").data

/-- First body line of the scenario's segment. -/
def c2Line1 : List Char :=
  ("[ 20%] foo.cpp: error: cannot find symbol ").data ++
    '\'' :: ("x").data ++ '\'' :: ("; at line 5").data

/-- Second body line of the scenario's segment. -/
def c2Line2 : List Char := ("more context").data

/-- The segment the fixed scenario yields. -/
def c2Seg : List Char := c2Line1 ++ nlChar :: (c2Line2 ++ [nlChar])

/-- The escaped header summary of the scenario. -/
def c2Hdr : List Char := ("error: cannot find symbol &#x27;x&#x27;").data

/-- The full report of the fixed scenario. -/
def c2Report : List Char :=
  blockPre ++ natRepr 1 ++ blockMid ++ c2Hdr ++ blockMid2 ++
    (c2Line1 ++ nlChar :: c2Line2) ++ blockEnd

/-- Resource-usage input with two complete blocks (RAM 2048 KiB and
3072 KiB): 33 lines, the second block start at line 23. -/
def w6Lines : List (List Char) :=
  [("a unitA12\n").data] ++ List.replicate 8 (("x\n").data) ++
    [("Maximum resident set size (kbytes): 2048\n").data] ++
    List.replicate 13 (("y\n").data) ++
    [("a unitB34\n").data] ++ List.replicate 8 (("x\n").data) ++
    [("Maximum resident set size (kbytes): 3072\n").data]

/-- The sorted table the input above produces. -/
def w6Rows : List (List Char × Int) := [(("unitB3").data, 3), (("unitA1").data, 2)]

/-- A block-start line containing the `unit` marker. -/
def w7L0 : List Char := ("a unitC56\n").data

/-- A filler line inside a block. -/
def w7Mid : List Char := ("x\n").data

/-- An offset-9 line whose last token is `2048`. -/
def w7L9 : List Char := ("Maximum resident set size (kbytes): 2048\n").data

/-- One complete reportable 10-line prefix of a block followed by nothing. -/
def w7Lines : List (List Char) :=
  w7L0 :: w7Mid :: w7Mid :: w7Mid :: w7Mid :: w7Mid :: w7Mid :: w7Mid :: w7Mid :: w7L9 :: []

/-- A one-line input whose single line starts a reportable block that the
input ends before its offset-9 line. -/
def w10Line : List Char := ("a unitD77\n").data

/-- Qualifying warning lines and excluded lines for the gate scenarios. -/
def gl1 : List Char := ("foo.hpp:3: warning: missing docs\n").data

/-- An excluded line: contains `warning:` but also `CLANG_OPTIONS`. -/
def gl2 : List Char := ("warning: CLANG_OPTIONS is obsolete\n").data

/-- A second qualifying warning line. -/
def gl3 : List Char := ("bar.hpp:9: warning: undocumented parameter\n").data

/-- An excluded line matching `CLANG_ASSISTED_PARSING`. -/
def gl4 : List Char := ("CLANG_ASSISTED_PARSING warning: off\n").data

/-- A third qualifying warning line. -/
def gl5 : List Char := ("baz.hpp:1: warning: no brief\n").data

/-- A stream with exactly three qualifying warning lines and two excluded
lines. -/
def gStream : List (List Char) := [gl1, gl2, gl3, gl4, gl5]

/-! ## Basic lemmas about substring occurrence -/

/-- An occurrence at any offset gives `containsSub`. -/
theorem containsSub_of_prefix_drop {pat s : List Char} {j : Nat}
    (h : pat.isPrefixOf (s.drop j) = true) : containsSub pat s = true := by
  unfold containsSub
  rw [List.any_eq_true]
  by_cases hj : j ≤ s.length
  · exact ⟨j, List.mem_range.2 (Nat.lt_succ_of_le hj), h⟩
  · refine ⟨s.length, List.mem_range.2 (Nat.lt_succ_self _), ?_⟩
    have h1 : s.drop j = [] := List.drop_eq_nil_of_le (by omega)
    have h2 : s.drop s.length = [] := List.drop_eq_nil_of_le le_rfl
    rw [h1] at h
    rw [h2]
    exact h

/-- A `containsSub` gives an occurrence. -/
theorem prefix_drop_of_containsSub {pat s : List Char}
    (h : containsSub pat s = true) : ∃ j, pat.isPrefixOf (s.drop j) = true := by
  unfold containsSub at h
  rw [List.any_eq_true] at h
  obtain ⟨j, _, hj⟩ := h
  exact ⟨j, hj⟩

/-- A prefix of a list is a prefix of a long enough `take`. -/
theorem prefixOfTake {p t : List Char} {n : Nat} (h : p <+: t)
    (hn : p.length ≤ n) : p <+: t.take n := by
  obtain ⟨u, rfl⟩ := h
  rw [List.take_append_eq_append_take, List.take_of_length_le hn]
  exact List.prefix_append _ _

/-! ## The stop scan of the lazy tail -/

/-- The lookahead holds at the end of the text. -/
theorem stopCond_length (r : List Char) : stopCond r r.length = true := by
  unfold stopCond
  simp

/-- If the lookahead fails at `m`, then `m` is not the end. -/
theorem stopCond_ne_of_false {r : List Char} {m : Nat}
    (h : stopCond r m = false) : m ≠ r.length := by
  intro hm
  rw [hm, stopCond_length] at h
  exact Bool.false_ne_true h.symm

/-- The scan `findStopAux` starting inside the text with enough fuel stops
at an offset at least its start, at most the length, satisfying the
lookahead. -/
theorem findStopAux_spec (r : List Char) :
    ∀ fuel m, m ≤ r.length → r.length ≤ m + fuel →
      m ≤ findStopAux r fuel m ∧ findStopAux r fuel m ≤ r.length ∧
        stopCond r (findStopAux r fuel m) = true := by
  intro fuel
  induction fuel with
  | zero =>
    intro m h1 h2
    have hm : m = r.length := le_antisymm h1 (by omega)
    subst hm
    exact ⟨le_rfl, le_rfl, stopCond_length r⟩
  | succ fuel ih =>
    intro m h1 h2
    by_cases hc : stopCond r m = true
    · have heq : findStopAux r (fuel + 1) m = m := by
        simp [findStopAux, hc]
      rw [heq]
      exact ⟨le_rfl, h1, hc⟩
    · have hfalse : stopCond r m = false := by
        cases hsc : stopCond r m
        · rfl
        · exact absurd hsc hc
      have heq : findStopAux r (fuel + 1) m = findStopAux r fuel (m + 1) := by
        simp [findStopAux, hfalse]
      have hne : m ≠ r.length := stopCond_ne_of_false hfalse
      have h1' : m + 1 ≤ r.length := by omega
      obtain ⟨ha, hb, hcnd⟩ := ih (m + 1) h1' (by omega)
      rw [heq]
      exact ⟨by omega, hb, hcnd⟩

/-- Specification of `findStop`. -/
theorem findStop_spec {r : List Char} {m0 : Nat} (h : m0 ≤ r.length) :
    m0 ≤ findStop r m0 ∧ findStop r m0 ≤ r.length ∧
      stopCond r (findStop r m0) = true :=
  findStopAux_spec r (r.length + 1 - m0) m0 h (by omega)

/-! ## The backtracking search for `: error:` -/

/-- The length of the literal `: error:`. -/
theorem colonError_length : colonError.length = 8 := by decide

/-- `: error:` is a colon and a space followed by `error:`. -/
theorem colonError_eq : colonError = ':' :: ' ' :: errorLit := by decide

/-- What a successful `lastErrIdx` returns. -/
theorem lastErrIdx_spec {r : List Char} {kmax k : Nat}
    (h : lastErrIdx r kmax = some k) :
    1 ≤ k ∧ k ≤ kmax ∧ colonError <+: r.drop k := by
  unfold lastErrIdx at h
  have hmem : k ∈ (List.range (kmax + 1)).filter
      (fun k => decide (1 ≤ k) && colonError.isPrefixOf (r.drop k)) := by
    have hk : k ∈ ((List.range (kmax + 1)).filter
        (fun k => decide (1 ≤ k) && colonError.isPrefixOf (r.drop k))).getLast? := h
    obtain ⟨hne, heq⟩ := List.mem_getLast?_eq_getLast hk
    rw [heq]
    exact List.getLast_mem hne
  rw [List.mem_filter] at hmem
  obtain ⟨hrange, hpred⟩ := hmem
  rw [Bool.and_eq_true, decide_eq_true_eq] at hpred
  refine ⟨hpred.1, ?_, List.isPrefixOf_iff_prefix.1 hpred.2⟩
  have := List.mem_range.1 hrange
  omega

/-! ## Bounds on the marker length -/

/-- A successful marker match fits inside the text and is nonempty. -/
theorem markerLen_le {s : List Char} {ml : Nat} (h : markerLen s = some ml) :
    1 ≤ ml ∧ ml ≤ s.length := by
  match s with
  | [] => exact absurd h (by simp [markerLen])
  | c :: rest =>
    simp only [markerLen] at h
    by_cases hc : c = '['
    · rw [if_pos hc] at h
      set ws := rest.takeWhile pySpace with hws
      set r2 := rest.drop ws.length with hr2
      set ds := r2.takeWhile pyDigit with hds2
      by_cases hds : ds.isEmpty
      · rw [if_pos hds] at h
        exact absurd h (by simp)
      · rw [if_neg hds] at h
        by_cases htl : (r2.drop ds.length).take 2 = ['%', ']']
        · rw [if_pos htl] at h
          have hml : ml = ws.length + ds.length + 3 := by
            injection h with h'
            omega
          have hws_le : ws.length ≤ rest.length := by
            rw [hws]
            have h' := List.takeWhile_prefix (l := rest) pySpace
            exact List.IsPrefix.length_le h'
          have hr2_len : r2.length = rest.length - ws.length := by
            rw [hr2, List.length_drop]
          have hds_le : ds.length ≤ r2.length := by
            rw [hds2]
            have h' := List.takeWhile_prefix (l := r2) pyDigit
            exact List.IsPrefix.length_le h'
          have htl_len : ((r2.drop ds.length).take 2).length = 2 := by
            rw [htl]
            rfl
          rw [List.length_take, List.length_drop] at htl_len
          simp only [List.length_cons]
          omega
        · rw [if_neg htl] at h
          exact absurd h (by simp)
    · rw [if_neg hc] at h
      exact absurd h (by simp)

/-! ## Specification of a `tokenise_regex` match -/

/-- What a successful `matchLen` guarantees: the text starts with a marker
of length `ml ≤ len`, a `: error:` occurs at some offset `k ≥ 1` past the
marker and wholly inside the match, the match ends where the lookahead
holds, and it stays inside the text. -/
theorem matchLen_spec {s : List Char} {len : Nat} (h : matchLen s = some len) :
    ∃ ml k,
      markerLen s = some ml ∧ 1 ≤ ml ∧ ml ≤ len ∧ len ≤ s.length ∧
        1 ≤ k ∧ ml + k + 8 ≤ len ∧
        colonError <+: s.drop (ml + k) ∧
        stopCond (s.drop ml) (len - ml) = true := by
  unfold matchLen at h
  cases hm : markerLen s with
  | none => rw [hm] at h; exact absurd h (by simp)
  | some ml =>
    rw [hm] at h
    simp only at h
    cases hl : lastErrIdx (s.drop ml)
        (match (firstMarkerIdx ((s.drop ml).drop 1)).map (· + 1) with
         | some b => b - 1
         | none => (s.drop ml).length) with
    | none => rw [hl] at h; exact absurd h (by simp)
    | some k =>
      rw [hl] at h
      obtain ⟨hk1, _, hkpre⟩ := lastErrIdx_spec hl
      have hml := markerLen_le hm
      have hk8 : k + 8 ≤ (s.drop ml).length := by
        have := List.IsPrefix.length_le hkpre
        rw [colonError_length, List.length_drop, List.length_drop] at this
        rw [List.length_drop]
        omega
      obtain ⟨hs1, hs2, hs3⟩ := findStop_spec hk8
      have hlen : len = ml + findStop (s.drop ml) (k + 8) := by
        injection h with h'
        omega
      refine ⟨ml, k, rfl, hml.1, by omega, ?_, hk1, by omega, ?_, ?_⟩
      · rw [List.length_drop] at hs2
        omega
      · rw [← List.drop_drop]
        exact hkpre
      · have : len - ml = findStop (s.drop ml) (k + 8) := by omega
        rw [this]
        exact hs3

/-! ## The scan of `finditer`: position bookkeeping and segment soundness -/

/-- Every segment the scan emits lies at its recorded position, starts
with a marker, contains `: error:`, ends at the lookahead, and the
segments are emitted left to right without overlap. -/
theorem tokeniseAux_spec :
    ∀ fuel pos content, pos ≤ content.length →
      List.Chain' (fun a b => a.1 + a.2.length ≤ b.1)
        (tokeniseAux fuel pos (content.drop pos)) ∧
      ∀ x ∈ tokeniseAux fuel pos (content.drop pos),
        pos ≤ x.1 ∧ goodSeg content x := by
  intro fuel
  induction fuel with
  | zero =>
    intro pos content _
    constructor
    · simp [tokeniseAux]
    · intro x hx
      simp [tokeniseAux] at hx
  | succ fuel ih =>
    intro pos content hpos
    cases hs : content.drop pos with
    | nil =>
      constructor
      · simp [tokeniseAux]
      · intro x hx
        simp [tokeniseAux] at hx
    | cons c rest =>
      have hslen : (c :: rest).length = content.length - pos := by
        rw [← hs, List.length_drop]
      have hposlt : pos < content.length := by
        simp only [List.length_cons] at hslen
        omega
      have hrest : content.drop (pos + 1) = rest := by
        have hdd := List.drop_drop (n := 1) (m := pos) (l := content)
        rw [hs] at hdd
        simpa using hdd.symm
      cases hm : matchLen (c :: rest) with
      | none =>
        have heq : tokeniseAux (fuel + 1) pos (c :: rest) =
            tokeniseAux fuel (pos + 1) (content.drop (pos + 1)) := by
          rw [hrest]
          simp only [tokeniseAux, hm]
        obtain ⟨ihc, ihm⟩ := ih (pos + 1) content (by omega)
        rw [heq]
        exact ⟨ihc, fun x hx => ⟨by have := (ihm x hx).1; omega, (ihm x hx).2⟩⟩
      | some len =>
        obtain ⟨ml, k, hmk, hml1, hmllen, hlenle, hk1, hk8, hkpre, hstop⟩ :=
          matchLen_spec hm
        have hdlen : content.drop (pos + len) = (c :: rest).drop len := by
          have hdd := List.drop_drop (n := len) (m := pos) (l := content)
          rw [hs] at hdd
          exact hdd.symm
        have hseglen : ((c :: rest).take len).length = len := by
          rw [List.length_take]
          omega
        have heq : tokeniseAux (fuel + 1) pos (c :: rest) =
            (pos, (c :: rest).take len) ::
              tokeniseAux fuel (pos + len) (content.drop (pos + len)) := by
          rw [hdlen]
          simp only [tokeniseAux, hm]
        obtain ⟨ihc, ihm⟩ := ih (pos + len) content (by omega)
        have hgood : goodSeg content (pos, (c :: rest).take len) := by
          refine ⟨?_, ?_, ?_, ?_⟩
          · simp only
            rw [hseglen, hs]
          · refine ⟨ml, ?_, hml1, ?_⟩
            · rw [hs]
              exact hmk
            · simp only
              rw [hseglen]
              exact hmllen
          · have hdt : ((c :: rest).take len).drop (ml + k) =
                ((c :: rest).drop (ml + k)).take (len - (ml + k)) := by
              rw [List.drop_take]
            have hpre2 : colonError <+: ((c :: rest).take len).drop (ml + k) := by
              rw [hdt]
              refine prefixOfTake hkpre ?_
              rw [colonError_length]
              omega
            exact containsSub_of_prefix_drop
              (j := ml + k) (List.isPrefixOf_iff_prefix.2 hpre2)
          · have hstop' := hstop
            simp only [stopCond, Bool.or_eq_true, Bool.and_eq_true,
              beq_iff_eq, decide_eq_true_eq] at hstop'
            have hdd2 : ((c :: rest).drop ml).drop (len - ml) =
                (c :: rest).drop len := by
              rw [List.drop_drop]
              congr 1
              omega
            have hrlen : ((c :: rest).drop ml).length = (c :: rest).length - ml := by
              rw [List.length_drop]
            unfold segEndOk
            simp only [hseglen]
            rcases hstop' with (hmark | hend) | hnl
            · left
              rw [hdd2] at hmark
              rw [hdlen]
              exact hmark
            · right; left
              rw [hrlen] at hend
              simp only [List.length_cons] at hend hslen
              omega
            · right; right
              obtain ⟨hnl1, hnl2⟩ := hnl
              rw [hrlen] at hnl1
              rw [hdd2] at hnl2
              constructor
              · simp only [List.length_cons] at hnl1 hslen
                omega
              · rw [hdlen]
                exact hnl2
        rw [heq]
        constructor
        · rw [List.chain'_cons']
          refine ⟨?_, ihc⟩
          intro y hy
          have hymem : y ∈ tokeniseAux fuel (pos + len) (content.drop (pos + len)) :=
            List.mem_of_mem_head? hy
          have := (ihm y hymem).1
          simp only [hseglen]
          omega
        · intro x hx
          rcases List.mem_cons.1 hx with hx1 | hx2
          · subst hx1
            exact ⟨le_rfl, hgood⟩
          · have := ihm x hx2
            exact ⟨by omega, this.2⟩

/-- A document without `: error:` has no match anywhere. -/
theorem matchLen_none_of_no_colonError {content : List Char}
    (h : containsSub colonError content = false) (pos : Nat) :
    matchLen (content.drop pos) = none := by
  cases hm : matchLen (content.drop pos) with
  | none => rfl
  | some len =>
    obtain ⟨ml, k, _, _, _, _, _, _, hkpre, _⟩ := matchLen_spec hm
    have : colonError.isPrefixOf (content.drop (pos + (ml + k))) = true := by
      have hdd := List.drop_drop (n := ml + k) (m := pos) (l := content)
      rw [← hdd]
      exact List.isPrefixOf_iff_prefix.2 hkpre
    have := containsSub_of_prefix_drop this
    rw [h] at this
    exact absurd this (by simp)

/-- Without `: error:` in the document, the scan emits nothing. -/
theorem tokeniseAux_nil_of_no_colonError {content : List Char}
    (h : containsSub colonError content = false) :
    ∀ fuel pos, tokeniseAux fuel pos (content.drop pos) = [] := by
  intro fuel
  induction fuel with
  | zero => intro pos; simp [tokeniseAux]
  | succ fuel ih =>
    intro pos
    cases hs : content.drop pos with
    | nil => simp [tokeniseAux]
    | cons c rest =>
      have hm := matchLen_none_of_no_colonError h pos
      rw [hs] at hm
      have hrest : content.drop (pos + 1) = rest := by
        have hdd := List.drop_drop (n := 1) (m := pos) (l := content)
        rw [hs] at hdd
        simpa using hdd.symm
      have := ih (pos + 1)
      rw [hrest] at this
      simp only [tokeniseAux, hm]
      exact this

/-! ## Summary extraction lemmas -/

/-- `error_regex` succeeds whenever `error:` occurs. -/
theorem errorCapture_isSome_of_occurs :
    ∀ {s : List Char}, (∃ j, errorLit.isPrefixOf (s.drop j) = true) →
      (errorCapture s).isSome = true := by
  intro s
  induction s with
  | nil =>
    intro ⟨j, hj⟩
    rw [List.drop_nil] at hj
    exact absurd hj (by decide)
  | cons c rest ih =>
    intro ⟨j, hj⟩
    by_cases hp : errorLit.isPrefixOf (c :: rest) = true
    · simp [errorCapture, hp]
    · have hpf : errorLit.isPrefixOf (c :: rest) = false := by
        cases hb : errorLit.isPrefixOf (c :: rest)
        · rfl
        · exact absurd hb hp
      simp only [errorCapture, hpf, Bool.false_eq_true, if_false]
      cases j with
      | zero =>
        rw [List.drop_zero] at hj
        exact absurd hj hp
      | succ j' => exact ih ⟨j', hj⟩

/-- A `: error:` occurrence yields an `error:` occurrence two characters
later. -/
theorem occurs_errorLit_of_containsSub_colonError {s : List Char}
    (h : containsSub colonError s = true) :
    ∃ j, errorLit.isPrefixOf (s.drop j) = true := by
  obtain ⟨j, hj⟩ := prefix_drop_of_containsSub h
  obtain ⟨t, ht⟩ := List.isPrefixOf_iff_prefix.1 hj
  refine ⟨j + 2, ?_⟩
  have hdd := List.drop_drop (n := 2) (m := j) (l := s)
  rw [← hdd, ← ht, colonError_eq]
  rw [List.isPrefixOf_iff_prefix]
  exact ⟨t, rfl⟩

/-- Every tokenised segment contains `: error:`. -/
theorem segment_colonError {content : List Char} {x : Nat × List Char}
    (hx : x ∈ tokenise content) : containsSub colonError x.2 = true := by
  have h := (tokeniseAux_spec content.length 0 content (Nat.zero_le _)).2
  rw [List.drop_zero] at h
  exact (h x hx).2.2.2.1

/-- `re.search(error_regex, ...)` succeeds on every tokenised segment. -/
theorem segment_capture_isSome {content : List Char} {x : Nat × List Char}
    (hx : x ∈ tokenise content) : (errorCapture x.2).isSome = true :=
  errorCapture_isSome_of_occurs
    (occurs_errorLit_of_containsSub_colonError (segment_colonError hx))

/-- The shape of a successful summary extraction: the match starts at the
first occurrence of `error:` and extends over the following characters
other than `(`, `;` and newline. -/
theorem errorCapture_spec :
    ∀ {s cap : List Char}, errorCapture s = some cap →
      ∃ i, errorLit.isPrefixOf (s.drop i) = true
        ∧ cap = errorLit ++ ((s.drop i).drop 6).takeWhile notStopChar
        ∧ ∀ j, j < i → errorLit.isPrefixOf (s.drop j) = false := by
  intro s
  induction s with
  | nil =>
    intro cap h
    exact absurd h (by simp [errorCapture])
  | cons c rest ih =>
    intro cap h
    by_cases hp : errorLit.isPrefixOf (c :: rest) = true
    · simp only [errorCapture, hp, if_true] at h
      refine ⟨0, ?_, ?_, ?_⟩
      · rw [List.drop_zero]
        exact hp
      · rw [List.drop_zero]
        exact (Option.some_inj.1 h).symm
      · intro j hj
        omega
    · have hpf : errorLit.isPrefixOf (c :: rest) = false := by
        cases hb : errorLit.isPrefixOf (c :: rest)
        · rfl
        · exact absurd hb hp
      simp only [errorCapture, hpf, Bool.false_eq_true, if_false] at h
      obtain ⟨i', h1, h2, h3⟩ := ih h
      refine ⟨i' + 1, h1, h2, ?_⟩
      intro j hj
      cases j with
      | zero =>
        rw [List.drop_zero]
        exact hpf
      | succ j' => exact h3 j' (by omega)

/-! ## The rendering loop -/

/-- The loop body succeeds on every segment whose extraction succeeds. -/
theorem renderAll_some :
    ∀ (gs : List (List Char)) (c : Nat),
      (∀ g ∈ gs, (errorCapture g).isSome = true) →
      ∃ out, renderAll c gs = some out := by
  intro gs
  induction gs with
  | nil => exact fun c _ => ⟨[], rfl⟩
  | cons g gs ih =>
    intro c hall
    have hg := hall g (List.mem_cons_self g gs)
    obtain ⟨cap, hcap⟩ := Option.isSome_iff_exists.1 hg
    obtain ⟨rest, hrest⟩ := ih (c + 1) fun g' hg' =>
      hall g' (List.mem_cons_of_mem _ hg')
    refine ⟨blockPre ++ (natRepr c ++ (blockMid ++
      (htmlEscape ((rstrip cap).take 110) ++ (blockMid2 ++
        (rstrip (intercalateNl ((splitNl g).take 30)) ++
          (blockEnd ++ rest)))))), ?_⟩
    simp [renderAll, renderBlock, hcap, hrest]

/-! ## Line-splitting lemmas for the body bound -/

/-- `split('\n')` never returns an empty list. -/
theorem splitNl_ne_nil (s : List Char) : splitNl s ≠ [] := by
  cases s with
  | nil => simp [splitNl]
  | cons c rest =>
    by_cases hc : c = nlChar
    · simp [splitNl, hc]
    · cases hsp : splitNl rest with
      | nil => simp [splitNl, hc, hsp]
      | cons piece pieces => simp [splitNl, hc, hsp]

/-- No piece of `split('\n')` contains a newline. -/
theorem splitNl_no_nl :
    ∀ (s : List Char) (p : List Char), p ∈ splitNl s → nlChar ∉ p := by
  intro s
  induction s with
  | nil =>
    intro p hp
    simp [splitNl] at hp
    simp [hp]
  | cons c rest ih =>
    intro p hp
    by_cases hc : c = nlChar
    · rw [show splitNl (c :: rest) = [] :: splitNl rest by simp [splitNl, hc]]
        at hp
      rcases List.mem_cons.1 hp with h1 | h2
      · simp [h1]
      · exact ih p h2
    · cases hsp : splitNl rest with
      | nil => exact absurd hsp (splitNl_ne_nil rest)
      | cons piece pieces =>
        rw [show splitNl (c :: rest) = (c :: piece) :: pieces by
          simp [splitNl, hc, hsp]] at hp
        rcases List.mem_cons.1 hp with h1 | h2
        · subst h1
          intro hmem
          rcases List.mem_cons.1 hmem with h3 | h4
          · exact hc h3.symm
          · exact ih piece (hsp ▸ List.mem_cons_self _ _) h4
        · exact ih p (hsp ▸ List.mem_cons_of_mem _ h2)

/-- Joining pieces without newlines introduces one newline between each
pair of neighbours. -/
theorem count_intercalateNl :
    ∀ (ps : List (List Char)), (∀ p ∈ ps, nlChar ∉ p) →
      (intercalateNl ps).count nlChar = ps.length - 1 := by
  intro ps
  induction ps with
  | nil => intro _; simp [intercalateNl]
  | cons p ps ih =>
    intro hall
    cases ps with
    | nil =>
      have : intercalateNl [p] = p := rfl
      rw [this]
      simp [List.count_eq_zero.2 (hall p (List.mem_cons_self _ _))]
    | cons q ps' =>
      have : intercalateNl (p :: q :: ps') =
          p ++ nlChar :: intercalateNl (q :: ps') := rfl
      rw [this, List.count_append]
      have hp0 : p.count nlChar = 0 :=
        List.count_eq_zero.2 (hall p (List.mem_cons_self _ _))
      have hrec := ih fun x hx => hall x (List.mem_cons_of_mem _ hx)
      rw [hp0, List.count_cons_self, hrec]
      simp only [List.length_cons]
      omega

/-- A prefix has at most as many occurrences. -/
theorem count_le_of_isPrefixLe {a : Char} {s t : List Char} (h : s <+: t) :
    s.count a ≤ t.count a := by
  obtain ⟨u, rfl⟩ := h
  rw [List.count_append]
  omega

/-- The rendered body has at most thirty lines: at most 29 newlines. -/
theorem body_newline_bound (seg : List Char) :
    (rstrip (intercalateNl ((splitNl seg).take 30))).count nlChar ≤ 29 := by
  have hpre : rstrip (intercalateNl ((splitNl seg).take 30)) <+:
      intercalateNl ((splitNl seg).take 30) := by
    unfold rstrip
    exact List.rdropWhile_prefix _ _
  have hcount := count_intercalateNl ((splitNl seg).take 30)
    (fun p hp => splitNl_no_nl seg p (List.take_subset _ _ hp))
  have hlen : ((splitNl seg).take 30).length ≤ 30 := by
    rw [List.length_take]
    omega
  have h1 := count_le_of_isPrefixLe (a := nlChar) hpre
  omega

set_option maxRecDepth 10000

/-! ## Claims about the error-log tokenizer -/

/-- **C1** (amended).  For every input document, the segmentation step
produces non-overlapping spans listed in order of position, each of which
begins at a progress marker, contains at least one occurrence of the
marker-adjacent literal `: error:` (not merely `error:`), and extends up
to the next progress marker or the end of the document (possibly short of
a final newline); a document without `: error:` yields zero segments
without error. -/
theorem tokenise_segmentation (content : List Char) :
    List.Chain' (fun a b => a.1 + a.2.length ≤ b.1) (tokenise content)
    ∧ (∀ x ∈ tokenise content, goodSeg content x)
    ∧ (containsSub colonError content = false → tokenise content = []) := by
  have h := tokeniseAux_spec content.length 0 content (Nat.zero_le _)
  rw [List.drop_zero] at h
  refine ⟨h.1, fun x hx => (h.2 x hx).2, fun hno => ?_⟩
  have h2 := tokeniseAux_nil_of_no_colonError hno content.length 0
  rw [List.drop_zero] at h2
  exact h2

/-- **C1** counterexample.  The document `[ 10%] error: x` begins at a
progress marker, contains the substring `error:` before the end of the
document, and contains no further progress marker, so under the claim it
is exactly one qualifying span; the tokenizer produces zero segments,
because its pattern requires the literal `: error:`. -/
theorem tokenise_segmentation_cex :
    isMarkerAt c1Doc = true ∧ containsSub errorLit c1Doc = true
    ∧ firstMarkerIdx (c1Doc.drop 1) = none ∧ tokenise c1Doc = [] := by
  decide

/-- **C4**.  On every segment produced by the segmentation step, the
summary-extraction search for `error:` succeeds: the `None` branch of
`re.search(error_regex, group)` is unreachable. -/
theorem segmentation_capture_invariant (content : List Char)
    (x : Nat × List Char) (h : x ∈ tokenise content) :
    (errorCapture x.2).isSome = true :=
  segment_capture_isSome h

/-- **C4** witness: the concrete segment of the fixed scenario. -/
theorem segmentation_capture_invariant_witness :
    (20, c2Seg) ∈ tokenise c2Fixed ∧ (errorCapture c2Seg).isSome = true :=
  ⟨by decide, segmentation_capture_invariant c2Fixed (20, c2Seg) (by decide)⟩

/-- **C5**.  For every input document the loop produces a full report
(no exception is raised), the printed output is its first 65300
characters, a report short enough is printed whole, and a longer one is
cut to exactly 65300 characters. -/
theorem report_truncation (content : List Char) :
    ∃ full, report content = some full
      ∧ processLog content = some (full.take 65300)
      ∧ (full.length ≤ 65300 → processLog content = some full)
      ∧ (65300 < full.length → (full.take 65300).length = 65300) := by
  have hall : ∀ g ∈ (tokenise content).map (·.2),
      (errorCapture g).isSome = true := by
    intro g hg
    rw [List.mem_map] at hg
    obtain ⟨x, hx, rfl⟩ := hg
    exact segment_capture_isSome hx
  obtain ⟨full, hfull⟩ := renderAll_some _ 1 hall
  have hrep : report content = some full := hfull
  have hproc : processLog content = some (full.take 65300) := by
    unfold processLog
    rw [hrep]
    rfl
  refine ⟨full, hrep, hproc, ?_, ?_⟩
  · intro hle
    rw [hproc, List.take_of_length_le hle]
  · intro hlt
    rw [List.length_take]
    omega

/-- **C3**.  For every document whose segmentation yields exactly one
segment, the report is exactly one block numbered 1 whose header summary
is the html-escape of the first-`error:` capture, trailing-whitespace
trimmed and truncated to at most 110 characters before escaping, and
whose body is the first at most 30 lines of the segment (at most 29
newlines after the trailing strip). -/
theorem single_segment_report (content : List Char) (p : Nat)
    (seg : List Char) (h : tokenise content = [(p, seg)]) :
    ∃ cap,
      errorCapture seg = some cap
      ∧ report content = some (blockPre ++ natRepr 1 ++ blockMid ++
          htmlEscape ((rstrip cap).take 110) ++ blockMid2 ++
          rstrip (intercalateNl ((splitNl seg).take 30)) ++ blockEnd)
      ∧ ((rstrip cap).take 110).length ≤ 110
      ∧ (rstrip (intercalateNl ((splitNl seg).take 30))).count nlChar ≤ 29
      ∧ (∃ i, errorLit.isPrefixOf (seg.drop i) = true
          ∧ cap = errorLit ++ ((seg.drop i).drop 6).takeWhile notStopChar
          ∧ ∀ j, j < i → errorLit.isPrefixOf (seg.drop j) = false) := by
  have hmem : (p, seg) ∈ tokenise content := by
    rw [h]
    exact List.mem_cons_self _ _
  have hsome := segment_capture_isSome hmem
  obtain ⟨cap, hcap⟩ := Option.isSome_iff_exists.1 hsome
  refine ⟨cap, hcap, ?_, ?_, body_newline_bound seg, errorCapture_spec hcap⟩
  · unfold report
    rw [h]
    simp [renderAll, renderBlock, hcap]
  · rw [List.length_take]
    omega

/-- **C3** witness: the fixed scenario has exactly one segment. -/
theorem single_segment_report_witness :
    tokenise c2Fixed = [(20, c2Seg)]
    ∧ ∃ cap,
        errorCapture c2Seg = some cap
        ∧ report c2Fixed = some (blockPre ++ natRepr 1 ++ blockMid ++
            htmlEscape ((rstrip cap).take 110) ++ blockMid2 ++
            rstrip (intercalateNl ((splitNl c2Seg).take 30)) ++ blockEnd)
        ∧ ((rstrip cap).take 110).length ≤ 110
        ∧ (rstrip (intercalateNl ((splitNl c2Seg).take 30))).count nlChar ≤ 29
        ∧ (∃ i, errorLit.isPrefixOf (c2Seg.drop i) = true
            ∧ cap = errorLit ++ ((c2Seg.drop i).drop 6).takeWhile notStopChar
            ∧ ∀ j, j < i → errorLit.isPrefixOf (c2Seg.drop j) = false) :=
  ⟨by decide, single_segment_report c2Fixed 20 c2Seg (by decide)⟩

/-- **C2** counterexample.  On the exact scenario input the tokenizer
produces zero segments — not one — because the error line lacks the
`: error:` shape; the printed report is empty. -/
theorem end_to_end_scenario_cex :
    tokenise c2Input = [] ∧ processLog c2Input = some [] := by
  decide

/-- **C2** (amended).  With the error line in the compiler's
`foo.cpp: error:` shape, the scenario yields exactly one segment, and the
report is one entry whose escaped header summary is
`error: cannot find symbol &#x27;x&#x27;` under the label `Error 1` and
whose body is the two lines between the 20% and the 30% marker. -/
theorem end_to_end_scenario_fixed :
    tokenise c2Fixed = [(20, c2Seg)]
    ∧ c2Seg = c2Line1 ++ nlChar :: (c2Line2 ++ [nlChar])
    ∧ report c2Fixed = some c2Report
    ∧ processLog c2Fixed = some c2Report
    ∧ c2Report = blockPre ++ natRepr 1 ++ blockMid ++ c2Hdr ++ blockMid2 ++
        (c2Line1 ++ nlChar :: c2Line2) ++ blockEnd := by
  refine ⟨by decide, rfl, by decide, by decide, rfl⟩

/-! ## The documentation warning gate -/

/-- The scan accumulates the count and the echoes of the qualifying
lines. -/
theorem gateScan_spec :
    ∀ (ls : List (List Char)) (cnt : Nat) (outs : List (List Char)),
      gateScan ls cnt outs =
        (cnt + (ls.filter qualifies).length,
          outs ++ (ls.filter qualifies).map bytesRepr) := by
  intro ls
  induction ls with
  | nil => intro cnt outs; simp [gateScan]
  | cons l rest ih =>
    intro cnt outs
    by_cases hq : qualifies l = true
    · rw [show gateScan (l :: rest) cnt outs =
          gateScan rest (cnt + 1) (outs ++ [bytesRepr l]) by
        simp [gateScan, hq]]
      rw [ih, List.filter_cons_of_pos hq, Prod.mk.injEq]
      constructor
      · simp only [List.length_cons]
        omega
      · simp
    · have hqf : qualifies l = false := by
        cases hb : qualifies l
        · rfl
        · exact absurd hb hq
      rw [show gateScan (l :: rest) cnt outs = gateScan rest cnt outs by
        simp [gateScan, hqf]]
      rw [ih, List.filter_cons_of_neg hq]

/-- **C8**.  After the stream is exhausted, the gate's counter is the
number of qualifying warning lines, the echoes are their byte-literal
representations, a summary line stating the count is printed and exit
status 1 is returned iff the counter is nonzero, and a zero counter gives
exit status 0 with no summary line. -/
theorem doc_gate_exit_behavior (stream : List (List Char)) :
    (docGate stream).count = (stream.filter qualifies).length
    ∧ (docGate stream).echoed = (stream.filter qualifies).map bytesRepr
    ∧ (((docGate stream).exitCode = 1
        ∧ (docGate stream).summary = some (summaryMsg (docGate stream).count))
        ↔ (docGate stream).count ≠ 0)
    ∧ ((docGate stream).count = 0 →
        (docGate stream).exitCode = 0 ∧ (docGate stream).summary = none) := by
  have hscan := gateScan_spec stream 0 []
  have hcount : (docGate stream).count = (stream.filter qualifies).length := by
    unfold docGate
    rw [hscan]
    simp
  have hech : (docGate stream).echoed = (stream.filter qualifies).map bytesRepr := by
    unfold docGate
    rw [hscan]
    simp
  refine ⟨hcount, hech, ?_, ?_⟩
  · constructor
    · intro ⟨hexit, _⟩ hzero
      unfold docGate at hexit
      rw [hscan] at hexit
      simp only [Nat.zero_add] at hexit
      rw [hcount] at hzero
      simp [hzero] at hexit
    · intro hnz
      have hnz' : (stream.filter qualifies).length ≠ 0 := by
        rw [hcount] at hnz
        exact hnz
      constructor
      · unfold docGate
        rw [hscan]
        simp [hnz']
      · rw [hcount]
        unfold docGate
        rw [hscan]
        simp [hnz']
  · intro hz
    have hz' : (stream.filter qualifies).length = 0 := by
      rw [hcount] at hz
      exact hz
    constructor
    · unfold docGate
      rw [hscan]
      simp [hz']
    · unfold docGate
      rw [hscan]
      simp [hz']

/-- **C9** (amended).  For a stream whose qualifying warning lines are
exactly three, the gate counts 3, echoes the Python byte-literal
representation (`repr` of the `bytes` line, not the decoded text) of
exactly those three lines in order, and exits with status 1; the
hypothesis on the two excluded-marker lines mirrors the scenario. -/
theorem doc_gate_three_warnings (stream : List (List Char))
    (q1 q2 q3 : List Char)
    (h : stream.filter qualifies = [q1, q2, q3])
    (_hexc : (stream.filter fun l =>
        containsSub clangOptLit l || containsSub clangAsstLit l).length = 2) :
    (docGate stream).count = 3
    ∧ (docGate stream).echoed = [bytesRepr q1, bytesRepr q2, bytesRepr q3]
    ∧ (docGate stream).exitCode = 1 := by
  have hscan := gateScan_spec stream 0 []
  refine ⟨?_, ?_, ?_⟩
  · unfold docGate
    rw [hscan]
    simp [h]
  · unfold docGate
    rw [hscan]
    simp [h]
  · unfold docGate
    rw [hscan]
    simp [h]

/-- **C9** witness: the concrete five-line stream. -/
theorem doc_gate_three_warnings_witness :
    gStream.filter qualifies = [gl1, gl3, gl5]
    ∧ (gStream.filter fun l =>
        containsSub clangOptLit l || containsSub clangAsstLit l).length = 2
    ∧ ((docGate gStream).count = 3
        ∧ (docGate gStream).echoed = [bytesRepr gl1, bytesRepr gl3, bytesRepr gl5]
        ∧ (docGate gStream).exitCode = 1) :=
  ⟨by decide, by decide,
    doc_gate_three_warnings gStream gl1 gl3 gl5 (by decide) (by decide)⟩

/-- **C9** counterexample.  On the five-line stream the gate counts 3 and
exits 1, but what it writes are the `b'...'` representations of the three
byte strings, not the three raw lines themselves. -/
theorem doc_gate_echo_cex :
    (docGate gStream).count = 3
    ∧ (docGate gStream).exitCode = 1
    ∧ gStream.filter qualifies = [gl1, gl3, gl5]
    ∧ (docGate gStream).echoed ≠ [gl1, gl3, gl5] := by
  decide

/-! ## Stepping lemmas for the reporter's loop -/

/-- A block-start line bearing the `unit` marker: the flag is raised and
the label recorded. -/
theorem collectAux_step_start {l : List Char} {rest : List (List Char)}
    {n : Nat} {flag : Bool} {ns : List (List Char)} {us : List Int} {i : Nat}
    (hn : n % 23 = 0) (hi : lastIdxOfUnit l = some i) :
    collectAux (l :: rest) n flag ns us =
      collectAux rest (n + 1) true (ns ++ [labelOf l i]) us := by
  have e9 : (n % 23 == 9) = false := by simp [hn]
  simp [collectAux, hn, hi, e9]

/-- A block-start line without the marker: the flag is lowered. -/
theorem collectAux_step_start_none {l : List Char} {rest : List (List Char)}
    {n : Nat} {flag : Bool} {ns : List (List Char)} {us : List Int}
    (hn : n % 23 = 0) (hi : lastIdxOfUnit l = none) :
    collectAux (l :: rest) n flag ns us =
      collectAux rest (n + 1) false ns us := by
  simp [collectAux, hn, hi]

/-- A line at an offset other than 0 and 9 only advances the counter. -/
theorem collectAux_step_mid {l : List Char} {rest : List (List Char)}
    {n : Nat} {flag : Bool} {ns : List (List Char)} {us : List Int}
    (h0 : n % 23 ≠ 0) (h9 : n % 23 ≠ 9) :
    collectAux (l :: rest) n flag ns us =
      collectAux rest (n + 1) flag ns us := by
  have e0 : (n % 23 == 0) = false := by simp [h0]
  have e9 : (n % 23 == 9) = false := by simp [h9]
  simp [collectAux, e0, e9]

/-- An offset-9 line with the flag down is skipped. -/
theorem collectAux_step_nine_off {l : List Char} {rest : List (List Char)}
    {n : Nat} {ns : List (List Char)} {us : List Int}
    (h0 : n % 23 ≠ 0) :
    collectAux (l :: rest) n false ns us =
      collectAux rest (n + 1) false ns us := by
  have e0 : (n % 23 == 0) = false := by simp [h0]
  simp [collectAux, e0]

/-- An offset-9 line with the flag up and a parseable last token records
one usage. -/
theorem collectAux_step_use {l : List Char} {rest : List (List Char)}
    {n : Nat} {ns : List (List Char)} {us : List Int} {v : Int}
    (h0 : n % 23 ≠ 0) (h9 : n % 23 = 9)
    (hv : parseIntPy (lastTok l) = some v) :
    collectAux (l :: rest) n true ns us =
      collectAux rest (n + 1) true ns (us ++ [Int.fdiv v 1024]) := by
  have e0 : (n % 23 == 0) = false := by simp [h0]
  simp [collectAux, e0, h9, hv]

/-- An offset-9 line with the flag up and an unparseable last token raises
`ValueError`. -/
theorem collectAux_step_use_fail {l : List Char} {rest : List (List Char)}
    {n : Nat} {ns : List (List Char)} {us : List Int}
    (h0 : n % 23 ≠ 0) (h9 : n % 23 = 9)
    (hv : parseIntPy (lastTok l) = none) :
    collectAux (l :: rest) n true ns us = none := by
  have e0 : (n % 23 == 0) = false := by simp [h0]
  simp [collectAux, e0, h9, hv]

/-- The loop only appends to the two record lists. -/
theorem collectAux_appends :
    ∀ (ls : List (List Char)) (n : Nat) (flag : Bool)
      (ns0 : List (List Char)) (us0 : List Int) (f2 : Bool)
      (ns2 : List (List Char)) (us2 : List Int),
      collectAux ls n flag ns0 us0 = some (f2, ns2, us2) →
      ∃ a b, ns2 = ns0 ++ a ∧ us2 = us0 ++ b := by
  intro ls
  induction ls with
  | nil =>
    intro n flag ns0 us0 f2 ns2 us2 h
    simp only [collectAux] at h
    injection h with h'
    injection h' with h1 h2
    injection h2 with h3 h4
    exact ⟨[], [], by simp [h3.symm], by simp [h4.symm]⟩
  | cons l rest ih =>
    intro n flag ns0 us0 f2 ns2 us2 h
    by_cases h0 : n % 23 = 0
    · cases hi : lastIdxOfUnit l with
      | some i =>
        rw [collectAux_step_start h0 hi] at h
        obtain ⟨a, b, ha, hb⟩ := ih _ _ _ _ _ _ _ h
        exact ⟨labelOf l i :: a, b, by rw [ha]; simp, hb⟩
      | none =>
        rw [collectAux_step_start_none h0 hi] at h
        exact ih _ _ _ _ _ _ _ h
    · by_cases h9 : n % 23 = 9
      · cases flag with
        | false =>
          rw [collectAux_step_nine_off h0] at h
          exact ih _ _ _ _ _ _ _ h
        | true =>
          cases hv : parseIntPy (lastTok l) with
          | none =>
            rw [collectAux_step_use_fail h0 h9 hv] at h
            exact absurd h (by simp)
          | some v =>
            rw [collectAux_step_use h0 h9 hv] at h
            obtain ⟨a, b, ha, hb⟩ := ih _ _ _ _ _ _ _ h
            exact ⟨a, Int.fdiv v 1024 :: b, ha, by rw [hb]; simp⟩
      · rw [collectAux_step_mid h0 h9] at h
        exact ih _ _ _ _ _ _ _ h

/-- Lines at offsets other than 0 and 9 leave the state unchanged. -/
theorem collectAux_skip :
    ∀ (ts : List (List Char)) (n : Nat) (flag : Bool)
      (ns : List (List Char)) (us : List Int),
      (∀ j, j < ts.length → (n + j) % 23 ≠ 0 ∧ (n + j) % 23 ≠ 9) →
      collectAux ts n flag ns us = some (flag, ns, us) := by
  intro ts
  induction ts with
  | nil => intro n flag ns us _; rfl
  | cons t ts ih =>
    intro n flag ns us hall
    have h0 := hall 0 (by simp)
    rw [Nat.add_zero] at h0
    rw [collectAux_step_mid h0.1 h0.2]
    apply ih
    intro j hj
    have := hall (j + 1) (by simp only [List.length_cons]; omega)
    rw [show n + (j + 1) = n + 1 + j by omega] at this
    exact this

/-- The balance invariant of the two record lists: the names lead the
usages by one exactly while a reportable block is between its offset-0
and offset-9 lines. -/
theorem collectAux_balance :
    ∀ (ls : List (List Char)) (n : Nat) (flag : Bool)
      (ns : List (List Char)) (us : List Int) (f2 : Bool)
      (ns2 : List (List Char)) (us2 : List Int),
      collectAux ls n flag ns us = some (f2, ns2, us2) →
      ns.length = us.length +
        (if flag = true ∧ 1 ≤ n % 23 ∧ n % 23 ≤ 9 then 1 else 0) →
      ns2.length = us2.length +
        (if f2 = true ∧ 1 ≤ (n + ls.length) % 23 ∧ (n + ls.length) % 23 ≤ 9
          then 1 else 0) := by
  intro ls
  induction ls with
  | nil =>
    intro n flag ns us f2 ns2 us2 h hbal
    simp only [collectAux] at h
    injection h with h'
    injection h' with h1 h2
    injection h2 with h3 h4
    subst h1; subst h3; subst h4
    simpa using hbal
  | cons l rest ih =>
    intro n flag ns us f2 ns2 us2 h hbal
    have harith : n + (l :: rest).length = n + 1 + rest.length := by
      simp only [List.length_cons]
      omega
    rw [harith]
    by_cases h0 : n % 23 = 0
    · have hent0 : (if flag = true ∧ 1 ≤ n % 23 ∧ n % 23 ≤ 9 then 1 else 0) = 0 := by
        rw [if_neg]
        rintro ⟨-, h1, -⟩
        omega
      rw [hent0] at hbal
      have hmod1 : (n + 1) % 23 = 1 := by omega
      cases hi : lastIdxOfUnit l with
      | some i =>
        rw [collectAux_step_start h0 hi] at h
        refine ih _ _ _ _ _ _ _ h ?_
        rw [if_pos ⟨rfl, by omega, by omega⟩]
        simp only [List.length_append, List.length_cons, List.length_nil]
        omega
      | none =>
        rw [collectAux_step_start_none h0 hi] at h
        refine ih _ _ _ _ _ _ _ h ?_
        rw [if_neg]
        · omega
        · rintro ⟨hff, -, -⟩
          cases hff
    · by_cases h9 : n % 23 = 9
      · have hmod10 : (n + 1) % 23 = 10 := by omega
        cases flag with
        | false =>
          rw [collectAux_step_nine_off h0] at h
          refine ih _ _ _ _ _ _ _ h ?_
          rw [if_neg (by rintro ⟨hff, -, -⟩; cases hff)]
          have : (if (false = true) ∧ 1 ≤ n % 23 ∧ n % 23 ≤ 9 then 1 else 0) = 0 := by
            rw [if_neg]
            rintro ⟨hff, -, -⟩
            cases hff
          rw [this] at hbal
          omega
        | true =>
          have hent1 : (if (true = true) ∧ 1 ≤ n % 23 ∧ n % 23 ≤ 9 then 1 else 0) = 1 := by
            rw [if_pos ⟨rfl, by omega, by omega⟩]
          rw [hent1] at hbal
          cases hv : parseIntPy (lastTok l) with
          | none =>
            rw [collectAux_step_use_fail h0 h9 hv] at h
            exact absurd h (by simp)
          | some v =>
            rw [collectAux_step_use h0 h9 hv] at h
            refine ih _ _ _ _ _ _ _ h ?_
            rw [if_neg (by rintro ⟨-, -, hle⟩; omega)]
            simp only [List.length_append, List.length_cons, List.length_nil]
            omega
      · rw [collectAux_step_mid h0 h9] at h
        refine ih _ _ _ _ _ _ _ h ?_
        have hsame :
            (if flag = true ∧ 1 ≤ (n + 1) % 23 ∧ (n + 1) % 23 ≤ 9 then 1 else 0) =
              (if flag = true ∧ 1 ≤ n % 23 ∧ n % 23 ≤ 9 then 1 else 0) := by
          by_cases hf : flag = true
          · simp only [hf, true_and]
            have hiff : (1 ≤ (n + 1) % 23 ∧ (n + 1) % 23 ≤ 9) ↔
                (1 ≤ n % 23 ∧ n % 23 ≤ 9) := by
              omega
            rw [if_congr hiff rfl rfl]
          · simp [hf]
        rw [hsame]
        exact hbal

/-- Running the loop over a concatenation runs it over the parts in
sequence. -/
theorem collectAux_append :
    ∀ (xs ys : List (List Char)) (n : Nat) (flag : Bool)
      (ns : List (List Char)) (us : List Int),
      collectAux (xs ++ ys) n flag ns us =
        (collectAux xs n flag ns us).bind
          (fun s => collectAux ys (n + xs.length) s.1 s.2.1 s.2.2) := by
  intro xs
  induction xs with
  | nil =>
    intro ys n flag ns us
    simp [collectAux]
  | cons x xs ih =>
    intro ys n flag ns us
    have harith : n + (x :: xs).length = n + 1 + xs.length := by
      simp only [List.length_cons]
      omega
    rw [List.cons_append]
    by_cases h0 : n % 23 = 0
    · cases hi : lastIdxOfUnit x with
      | some i =>
        rw [collectAux_step_start h0 hi, collectAux_step_start h0 hi, ih,
          harith]
      | none =>
        rw [collectAux_step_start_none h0 hi,
          collectAux_step_start_none h0 hi, ih, harith]
    · by_cases h9 : n % 23 = 9
      · cases flag with
        | false =>
          rw [collectAux_step_nine_off h0, collectAux_step_nine_off h0, ih,
            harith]
        | true =>
          cases hv : parseIntPy (lastTok x) with
          | none =>
            rw [collectAux_step_use_fail h0 h9 hv,
              collectAux_step_use_fail h0 h9 hv]
            rfl
          | some v =>
            rw [collectAux_step_use h0 h9 hv, collectAux_step_use h0 h9 hv,
              ih, harith]
      · rw [collectAux_step_mid h0 h9, collectAux_step_mid h0 h9, ih, harith]

/-! ## Claims about the resource usage reporter -/

/-- **C6**.  Whenever the reporter produces a table, its rows are sorted
by weakly decreasing memory value, and rows of equal memory value by
weakly decreasing label (lexicographically). -/
theorem ram_rows_sorted (lines : List (List Char))
    (rows : List (List Char × Int)) (h : ramRows lines = some rows) :
    rows.Pairwise fun a b => b.2 ≤ a.2 ∧ (a.2 = b.2 → b.1 ≤ a.1) := by
  unfold ramRows at h
  cases hc : collect lines with
  | none => rw [hc] at h; exact absurd h (by simp)
  | some s =>
    rw [hc] at h
    simp only [Option.some_bind] at h
    by_cases hl : s.2.1.length = s.2.2.length
    · rw [if_pos hl] at h
      have hrows : rows = sortRows (s.2.1.zip s.2.2) :=
        (Option.some_inj.1 h).symm
      subst hrows
      have hsorted : List.Sorted rowLe (sortRows (s.2.1.zip s.2.2)) :=
        List.sorted_insertionSort rowLe _
      refine List.Pairwise.imp ?_ hsorted
      intro a b hab
      unfold rowLe rowKey at hab
      rw [Prod.Lex.le_iff] at hab
      rcases hab with hlt | ⟨heq, hle⟩
      · exact ⟨le_of_lt hlt, fun heq2 => absurd (heq2 ▸ hlt) (lt_irrefl _)⟩
      · exact ⟨le_of_eq heq, fun _ => hle⟩
    · rw [if_neg hl] at h
      exact absurd h (by simp)

/-- **C6** witness: the two-block input sorts descending. -/
theorem ram_rows_sorted_witness :
    ramRows w6Lines = some w6Rows
    ∧ w6Rows.Pairwise fun a b => b.2 ≤ a.2 ∧ (a.2 = b.2 → b.1 ≤ a.1) :=
  ⟨by decide, ram_rows_sorted w6Lines w6Rows (by decide)⟩

/-- **C7**.  For every reportable block — a block-start line bearing the
`unit` marker followed by an offset-9 line whose last space-delimited
token parses as the integer `v` — the collected usage list starts with
`v` floor-divided by 1024, paired with the label cut from the block-start
line. -/
theorem ram_block_value (l0 m1 m2 m3 m4 m5 m6 m7 m8 l9 : List Char)
    (rest : List (List Char)) (v : Int) (f : Bool)
    (ns : List (List Char)) (us : List Int)
    (hu : (lastIdxOfUnit l0).isSome = true)
    (hv : parseIntPy (lastTok l9) = some v)
    (hc : collect
        (l0 :: m1 :: m2 :: m3 :: m4 :: m5 :: m6 :: m7 :: m8 :: l9 :: rest) =
      some (f, ns, us)) :
    us.head? = some (Int.fdiv v 1024)
    ∧ ∃ i, lastIdxOfUnit l0 = some i ∧ ns.head? = some (labelOf l0 i) := by
  obtain ⟨i, hi⟩ := Option.isSome_iff_exists.1 hu
  unfold collect at hc
  rw [collectAux_step_start (by decide) hi] at hc
  rw [collectAux_step_mid (by decide) (by decide)] at hc
  rw [collectAux_step_mid (by decide) (by decide)] at hc
  rw [collectAux_step_mid (by decide) (by decide)] at hc
  rw [collectAux_step_mid (by decide) (by decide)] at hc
  rw [collectAux_step_mid (by decide) (by decide)] at hc
  rw [collectAux_step_mid (by decide) (by decide)] at hc
  rw [collectAux_step_mid (by decide) (by decide)] at hc
  rw [collectAux_step_mid (by decide) (by decide)] at hc
  rw [collectAux_step_use (by decide) (by decide) hv] at hc
  obtain ⟨a, b, ha, hb⟩ := collectAux_appends _ _ _ _ _ _ _ _ hc
  constructor
  · rw [hb]
    simp
  · exact ⟨i, hi, by rw [ha]; simp⟩

/-- **C7** witness: the token `2048` yields the value exactly 2. -/
theorem ram_block_value_witness :
    (lastIdxOfUnit w7L0).isSome = true
    ∧ parseIntPy (lastTok w7L9) = some 2048
    ∧ collect w7Lines = some (true, [("unitC5").data], [2])
    ∧ Int.fdiv 2048 1024 = 2
    ∧ (([2] : List Int).head? = some (Int.fdiv 2048 1024)
        ∧ ∃ i, lastIdxOfUnit w7L0 = some i
            ∧ ([("unitC5").data] : List (List Char)).head? =
                some (labelOf w7L0 i)) :=
  ⟨by decide, by decide, by decide, by decide,
    ram_block_value w7L0 w7Mid w7Mid w7Mid w7Mid w7Mid w7Mid w7Mid w7Mid w7L9
      [] 2048 true [("unitC5").data] [2] (by decide) (by decide) (by decide)⟩

/-- **C10**.  When a line at an index that is a multiple of 23 bears the
`unit` marker but the input ends before that block's offset-9 line, the
run records the block's label without a matching usage — whenever the
reading loop completes, the label list is exactly one longer than the
usage list — and the reporter aborts without writing any table. -/
theorem ram_incomplete_block_aborts (lines : List (List Char)) (i : Nat)
    (l0 : List Char) (ts : List (List Char))
    (hdrop : lines.drop (23 * i) = l0 :: ts)
    (hts : ts.length ≤ 8)
    (hu : (lastIdxOfUnit l0).isSome = true) :
    (∀ f ns us, collect lines = some (f, ns, us) →
      ns.length = us.length + 1)
    ∧ ramRows lines = none := by
  obtain ⟨i0, hi0⟩ := Option.isSome_iff_exists.1 hu
  have hlen : 23 * i ≤ lines.length := by
    by_contra hlt
    have hnil : lines.drop (23 * i) = [] := List.drop_eq_nil_of_le (by omega)
    rw [hdrop] at hnil
    exact absurd hnil (by simp)
  have hsplit : lines = lines.take (23 * i) ++ (l0 :: ts) := by
    conv_lhs => rw [← List.take_append_drop (23 * i) lines]
    rw [hdrop]
  have htake_len : (lines.take (23 * i)).length = 23 * i := by
    rw [List.length_take]
    omega
  have hmain : ∀ f ns us, collect lines = some (f, ns, us) →
      ns.length = us.length + 1 := by
    intro f ns us hc
    unfold collect at hc
    rw [hsplit, collectAux_append] at hc
    cases hpre : collectAux (lines.take (23 * i)) 0 false [] [] with
    | none =>
      rw [hpre] at hc
      exact absurd hc (by simp)
    | some s =>
      obtain ⟨f1, ns1, us1⟩ := s
      rw [hpre] at hc
      simp only [Option.some_bind, htake_len, Nat.zero_add] at hc
      have hbal := collectAux_balance _ 0 false [] [] f1 ns1 us1 hpre (by simp)
      rw [htake_len] at hbal
      have h023 : (0 + 23 * i) % 23 = 0 := by omega
      have hbal1 : ns1.length = us1.length := by
        rw [h023] at hbal
        simpa using hbal
      have h0 : (23 * i) % 23 = 0 := by omega
      rw [collectAux_step_start h0 hi0] at hc
      rw [collectAux_skip ts _ _ _ _ ?_] at hc
      · injection hc with hc'
        injection hc' with hf hc2
        injection hc2 with hns hus
        rw [← hns, ← hus]
        simp only [List.length_append, List.length_cons, List.length_nil]
        omega
      · intro j hj
        constructor
        · omega
        · omega
  refine ⟨hmain, ?_⟩
  unfold ramRows
  cases hc : collect lines with
  | none => rfl
  | some s =>
    obtain ⟨f, ns, us⟩ := s
    have hlen1 := hmain f ns us hc
    simp only [Option.some_bind]
    rw [if_neg]
    omega

/-- **C10** witness: a single `unit` line with no offset-9 line. -/
theorem ram_incomplete_block_witness :
    ([w10Line] : List (List Char)).drop (23 * 0) = w10Line :: []
    ∧ ([] : List (List Char)).length ≤ 8
    ∧ (lastIdxOfUnit w10Line).isSome = true
    ∧ ((∀ f ns us, collect [w10Line] = some (f, ns, us) →
          ns.length = us.length + 1)
        ∧ ramRows [w10Line] = none) :=
  ⟨by decide, by decide, by decide,
    ram_incomplete_block_aborts [w10Line] 0 w10Line [] (by decide) (by decide)
      (by decide)⟩
